import Mathlib

/-!
Shallow embedding of the motif V/Hz drive-control crate.

Sources embedded (f32 arithmetic idealised as real arithmetic):
  * `src/lib.rs`                      : `complex_to_abc`, `abc2complex`
  * `src/control/rate_limiter.rs`     : `RateLimiter`
  * `src/control/pwm.rs`              : `Pwm`, `six_step_overmodulation`, `duty_ratios`
  * `src/control/induction/vhz.rs`    : `InductionMotorVhzControl`

Rust's `%` on floats is the truncated remainder (sign of the dividend);
`rustRem` below embeds it.  `Float::exp` on an `f32` is the real
exponential, and `f32 * Complex32` is scalar multiplication; both are
embedded literally.
-/

open Real

/-- Truncation toward zero, as Rust's `f32::trunc`. -/
noncomputable def rustTrunc (x : ℝ) : ℝ :=
  if 0 ≤ x then (⌊x⌋ : ℝ) else (⌈x⌉ : ℝ)

/-- Rust's `%` on floats: truncated remainder, keeping the dividend's sign. -/
noncomputable def rustRem (x y : ℝ) : ℝ :=
  x - y * rustTrunc (x / y)

/-- `complex_to_abc` from `src/lib.rs` lines 175-181. -/
noncomputable def complex_to_abc (u : ℂ) : ℝ × ℝ × ℝ :=
  (u.re,
   0.5 * (-u.re + Real.sqrt 3 * u.im),
   0.5 * (-u.re - Real.sqrt 3 * u.im))

/-- `abc2complex` from `src/lib.rs` lines 183-185.  As written in the
source it returns an `f32`: the `1.` in `1. * (u[1] - u[2]) / sqrt(3)`
is a real factor, so the whole expression is real-valued and the
would-be imaginary part is added to the real part. -/
noncomputable def abc2complex (u : ℝ × ℝ × ℝ) : ℝ :=
  (2 / 3) * u.1 - (u.2.1 + u.2.2) / 3 + 1 * (u.2.1 - u.2.2) / Real.sqrt 3

/-- Modelled from the spec: the abc→complex transform of §4.1, which the
spec (design note §9.1) states is the intended reading of `abc2complex`,
with the third term on the imaginary axis:
`z = (2/3)·x_a − (1/3)·(x_b + x_c) + j·(1/√3)·(x_b − x_c)`.
Used only to state the spec side of claims, never as the code. -/
noncomputable def abc_to_complex_spec (u : ℝ × ℝ × ℝ) : ℂ :=
  ((2 / 3) * u.1 - (u.2.1 + u.2.2) / 3 : ℝ) +
    Complex.I * ((1 / Real.sqrt 3) * (u.2.1 - u.2.2) : ℝ)

/-- State of `RateLimiter` (`src/control/rate_limiter.rs`). -/
structure RateLimiter where
  limit : ℝ
  y : ℝ

/-- `RateLimiter::new`. -/
def RateLimiter.new (limit : ℝ) : RateLimiter := ⟨limit, 0⟩

/-- `RateLimiter::rate_limit` (`src/control/rate_limiter.rs` lines 11-26),
returning the updated limiter together with the returned value. -/
noncomputable def RateLimiter.rate_limit (self : RateLimiter) (t_s u : ℝ) :
    RateLimiter × ℝ :=
  let rate := (u - self.y) / t_s
  let y :=
    if rate > self.limit then self.y + t_s * self.limit
    else if rate < -self.limit then self.y - t_s * self.limit
    else u
  (⟨self.limit, y⟩, y)

/-- State of `Pwm` (`src/control/pwm.rs`). -/
structure Pwm where
  is_six_step : Bool
  realized_voltage : ℂ
  u_ref_lim_old : ℂ

/-- `Pwm::new`. -/
def Pwm.new (is_six_step : Bool) : Pwm := ⟨is_six_step, 0, 0⟩

/-- `six_step_overmodulation` (`src/control/pwm.rs` lines 87-114).  Note
that `r * Float::exp(theta0 + sector * PI / 3.)` in the source is a real
product of two `f32`s, converted into a complex by `.into()`. -/
noncomputable def six_step_overmodulation (u_s_ref : ℂ) (u_dc : ℝ) : ℂ :=
  let r := min (Complex.abs u_s_ref) (2 / 3 * u_dc)
  if Real.sqrt 3 * r > u_dc then
    let theta := u_s_ref.arg
    let sector := ((⌊3 * theta / Real.pi⌋ : ℤ) : ℝ)
    let theta0 := theta - sector * Real.pi / 3
    let alpha_g := Real.pi / 6 - Real.arccos (u_dc / (Real.sqrt 3 * r))
    let theta0' :=
      if alpha_g ≤ theta0 ∧ theta0 ≤ Real.pi / 6 then alpha_g
      else if Real.pi / 6 ≤ theta0 ∧ theta0 ≤ Real.pi / 3 - alpha_g then
        Real.pi / 3 - alpha_g
      else theta0
    ((r * Real.exp (theta0' + sector * Real.pi / 3) : ℝ) : ℂ)
  else u_s_ref

/-- `duty_ratios` (free function, `src/control/pwm.rs` lines 123-143). -/
noncomputable def duty_ratios (u_s_ref : ℂ) (u_dc : ℝ) : ℝ × ℝ × ℝ :=
  let u_abc := complex_to_abc u_s_ref
  let u_0 := 0.5 * (max (max u_abc.1 u_abc.2.1) u_abc.2.2 +
    min (min u_abc.1 u_abc.2.1) u_abc.2.2)
  let u_abc1 := (u_abc.1 - u_0, u_abc.2.1 - u_0, u_abc.2.2 - u_0)
  let m := (2 / u_dc) * max (max u_abc1.1 u_abc1.2.1) u_abc1.2.2
  let u_abc2 :=
    if m > 1 then (u_abc1.1 / m, u_abc1.2.1 / m, u_abc1.2.2 / m) else u_abc1
  (u_abc2.1 / u_dc + 0.5, u_abc2.2.1 / u_dc + 0.5, u_abc2.2.2 / u_dc + 0.5)

/-- `theta + 1.5 * t_s * w`, the delay-compensated angle of
`Pwm::output` (`src/control/pwm.rs` line 60). -/
def Pwm.theta_comp (t_s theta w : ℝ) : ℝ := theta + 1.5 * t_s * w

/-- The local `u_s_ref` of `Pwm::output` (`src/control/pwm.rs`
lines 62-68): `Float::exp(theta_comp) * u_ref` is the real exponential
of an `f32` scaling the complex reference. -/
noncomputable def Pwm.stator_ref (self : Pwm) (t_s : ℝ) (u_ref : ℂ)
    (u_dc theta w : ℝ) : ℂ :=
  let u := (Real.exp (Pwm.theta_comp t_s theta w) : ℝ) * u_ref
  if self.is_six_step then six_step_overmodulation u u_dc else u

/-- `Pwm::output` (`src/control/pwm.rs` lines 51-78).  The crate-root
`abc_to_complex` it calls is the `abc2complex` of `src/lib.rs` (the only
definition of the transform in the crate; its `f32` result is what makes
the other call sites type-check), so `u_s_ref_lim` is real and
`Float::exp(-1. * theta_comp)` is again a real exponential. -/
noncomputable def Pwm.output (self : Pwm) (t_s : ℝ) (u_ref : ℂ)
    (u_dc theta w : ℝ) : (ℝ × ℝ × ℝ) × ℂ :=
  let d_abc_ref := duty_ratios (self.stator_ref t_s u_ref u_dc theta w) u_dc
  let u_s_ref_lim := abc2complex d_abc_ref * u_dc
  let u_ref_lim := Real.exp (-1 * Pwm.theta_comp t_s theta w) * u_s_ref_lim
  (d_abc_ref, (u_ref_lim : ℂ))

/-- `Pwm::update` (`src/control/pwm.rs` lines 81-84): the old
`u_ref_lim_old` is read for the midpoint before being overwritten. -/
noncomputable def Pwm.update (self : Pwm) (u_ref_lim : ℂ) : Pwm :=
  ⟨self.is_six_step, 0.5 * (self.u_ref_lim_old + u_ref_lim), u_ref_lim⟩

/-- `Pwm::duty_ratios` (`src/control/pwm.rs` lines 36-48), returning the
updated state together with the duty ratios. -/
noncomputable def Pwm.duty_ratios (self : Pwm) (t_s : ℝ) (u_ref : ℂ)
    (u_dc theta w : ℝ) : Pwm × (ℝ × ℝ × ℝ) :=
  let o := self.output t_s u_ref u_dc theta w
  (self.update o.2, o.1)

/-- State of `InductionMotorVhzControl`
(`src/control/induction/vhz.rs`), fields in declaration order. -/
structure InductionMotorVhzControl where
  rate_limiter : RateLimiter
  pwm : Pwm
  l_sgm : ℝ
  k_w : ℂ
  k_u : ℝ
  l_m : ℝ
  r_s : ℝ
  r_r : ℝ
  w_r_ref : ℂ
  i_s_ref : ℂ
  psi_s_ref : ℂ
  theta_s : ℝ
  alpha_i : ℝ
  alpha_f : ℝ

/-- `Builder::build` (`src/control/induction/vhz.rs` lines 41-60),
parameterised by the three builder fields. -/
noncomputable def vhzBuild (r_r l_m l_sgm : ℝ) : InductionMotorVhzControl :=
  let w_rb := r_r * (l_m + l_sgm) / (l_sgm * l_m)
  { rate_limiter := RateLimiter.new (2 * Real.pi * 120)
    pwm := Pwm.new false
    l_sgm := l_sgm
    k_w := ⟨4, 1⟩
    k_u := 1
    l_m := l_m
    r_s := 3.7
    r_r := r_r
    w_r_ref := 0
    i_s_ref := 0
    psi_s_ref := ⟨1.04, 1⟩
    theta_s := 0
    alpha_i := 0.1 * w_rb
    alpha_f := 0.1 * w_rb }

/-- `InductionMotorVhzControl::default`: `Builder::default().build()`
with `r_r = 2.1`, `l_m = 0.224`, `l_sgm = 0.21`. -/
noncomputable def vhzDefault : InductionMotorVhzControl :=
  vhzBuild 2.1 0.224 0.21

/-- `InductionMotorVhzControl::stator_freq`
(`src/control/induction/vhz.rs` lines 118-134). -/
noncomputable def InductionMotorVhzControl.stator_freq
    (self : InductionMotorVhzControl) (w_s_ref i_s : ℂ) : ℂ × ℂ :=
  let psi_r_ref := self.psi_s_ref - (self.l_sgm : ℂ) * self.i_s_ref
  let psi_r_ref_sqr := Complex.abs psi_r_ref ^ 2
  if psi_r_ref_sqr > 0 then
    let w_r := self.r_r * (i_s * (starRingEnd ℂ) psi_r_ref).im / psi_r_ref_sqr
    let w_s := w_s_ref + self.k_w * (self.w_r_ref - (w_r : ℂ))
    (w_s, (w_r : ℂ))
  else (0, 0)

/-- `InductionMotorVhzControl::voltage_reference`
(`src/control/induction/vhz.rs` lines 137-149); `i_s` is an `f32`
there. -/
noncomputable def InductionMotorVhzControl.voltage_reference
    (self : InductionMotorVhzControl) (w_s : ℂ) (i_s : ℝ) : ℂ :=
  let i_sd_nom := self.psi_s_ref / ((self.l_m + self.l_sgm : ℝ) : ℂ)
  let i_s_ref0 := i_sd_nom + (⟨1, self.i_s_ref.im⟩ : ℂ)
  let k := ((self.k_u * self.l_sgm : ℝ) : ℂ) *
    (((self.r_r / self.l_m : ℝ) : ℂ) + (1 : ℝ) * w_s)
  (self.r_s : ℂ) * i_s_ref0 + (1 : ℝ) * w_s * self.psi_s_ref +
    k * (self.i_s_ref - (i_s : ℂ))

/-- `<InductionMotorVhzControl as Control<M>>::control`
(`src/control/induction/vhz.rs` lines 153-186), with the phase currents
and DC-bus voltage read from the model passed as arguments.  The
crate-root `abc_to_complex` is the real-valued `abc2complex` of
`src/lib.rs` (its result is the `f32`-typed `i_s`), and
`Float::exp(-1. * self.theta_s)` is the real exponential. -/
noncomputable def InductionMotorVhzControl.control
    (self : InductionMotorVhzControl) (i_s_abc : ℝ × ℝ × ℝ)
    (u_dc w_m_ref t_s : ℝ) : InductionMotorVhzControl × (ℝ × ℝ × ℝ) :=
  let rl := self.rate_limiter.rate_limit t_s w_m_ref
  let w_m_ref1 := rl.2
  let i_s : ℝ := Real.exp (-1 * self.theta_s) * abc2complex i_s_abc
  let w_s_ref : ℂ := (w_m_ref1 : ℂ) + self.w_r_ref
  let f := self.stator_freq w_s_ref (i_s : ℂ)
  let w_s := f.1
  let w_r := f.2
  let u_s_ref := self.voltage_reference w_s i_s
  let p := self.pwm.duty_ratios t_s u_s_ref u_dc self.theta_s w_s.re
  let i_s_ref1 := self.i_s_ref +
    ((t_s : ℂ) * (self.alpha_i : ℂ)) * ((i_s : ℂ) - self.i_s_ref)
  let w_r_ref1 := self.w_r_ref +
    ((t_s : ℂ) * (self.alpha_f : ℂ)) * (w_r - self.w_r_ref)
  let theta1 := self.theta_s + ((t_s : ℂ) * w_s).re
  let theta2 := rustRem (theta1 + Real.pi) (2 * Real.pi) - Real.pi
  (⟨rl.1, p.1, self.l_sgm, self.k_w, self.k_u, self.l_m, self.r_s,
    self.r_r, w_r_ref1, i_s_ref1, self.psi_s_ref, theta2,
    self.alpha_i, self.alpha_f⟩, p.2)

/-! ### Rate limiter (C5) -/

/-- Claim C5: for every call to `RateLimiter::rate_limit` with sample
period `t_s > 0` (and nonnegative slew limit, as every limiter the crate
constructs), the new output moves from the previous one by at most
`limit * t_s`, and whenever the input is already within `limit * t_s` of
the previous output it is returned exactly. -/
theorem rate_limit_slew (rl : RateLimiter) (t_s u : ℝ)
    (ht : 0 < t_s) (hl : 0 ≤ rl.limit) :
    |(rl.rate_limit t_s u).2 - rl.y| ≤ rl.limit * t_s ∧
      (|u - rl.y| ≤ rl.limit * t_s → (rl.rate_limit t_s u).2 = u) := by
  unfold RateLimiter.rate_limit
  dsimp only
  by_cases h1 : (u - rl.y) / t_s > rl.limit
  · have h1' : rl.limit * t_s < u - rl.y := (lt_div_iff ht).mp h1
    rw [if_pos h1]
    refine ⟨?_, fun hu => absurd (le_trans (le_abs_self _) hu) (not_le.mpr h1')⟩
    rw [add_sub_cancel_left, abs_of_nonneg (by positivity)]
    nlinarith
  · rw [if_neg h1]
    by_cases h2 : (u - rl.y) / t_s < -rl.limit
    · have h2' : u - rl.y < -(rl.limit * t_s) := by
        have := (div_lt_iff ht).mp h2
        nlinarith
      rw [if_pos h2]
      refine ⟨?_, fun hu => absurd (abs_le.mp hu).1 (not_le.mpr (by linarith))⟩
      rw [sub_sub_cancel_left, abs_neg, abs_of_nonneg (by positivity)]
      nlinarith
    · rw [if_neg h2]
      have hle : u - rl.y ≤ rl.limit * t_s := by
        have := not_lt.mp h1
        nlinarith [(div_le_iff ht).mp (not_lt.mp h1)]
      have hge : -(rl.limit * t_s) ≤ u - rl.y := by
        have := not_lt.mp h2
        nlinarith [(le_div_iff ht).mp (not_lt.mp h2)]
      exact ⟨abs_le.mpr ⟨hge, hle⟩, fun _ => rfl⟩

/-- Witness for C5: limiter with `limit = 1`, `y = 0`, at `t_s = 1`,
`u = 5`. -/
theorem rate_limit_slew_witness :
    (0 : ℝ) < 1 ∧ 0 ≤ (RateLimiter.mk 1 0).limit ∧
      (|((RateLimiter.mk 1 0).rate_limit 1 5).2 - (RateLimiter.mk 1 0).y| ≤
          (RateLimiter.mk 1 0).limit * 1 ∧
        (|(5 : ℝ) - (RateLimiter.mk 1 0).y| ≤ (RateLimiter.mk 1 0).limit * 1 →
          ((RateLimiter.mk 1 0).rate_limit 1 5).2 = 5)) :=
  ⟨by norm_num, by norm_num,
    rate_limit_slew (RateLimiter.mk 1 0) 1 5 (by norm_num) (by norm_num)⟩

/-! ### Degenerate-flux guard (C6) -/

/-- Claim C6: whenever the squared magnitude of
`psi_r_ref = psi_s_ref - l_sgm * i_s_ref` is `≤ 0`, `stator_freq`
returns the zero pair, guarding its division. -/
theorem stator_freq_degenerate (self : InductionMotorVhzControl)
    (w_s_ref i_s : ℂ)
    (h : Complex.abs (self.psi_s_ref - (self.l_sgm : ℂ) * self.i_s_ref) ^ 2 ≤ 0) :
    self.stator_freq w_s_ref i_s = (0, 0) := by
  unfold InductionMotorVhzControl.stator_freq
  rw [if_neg (not_lt.mpr h)]

/-- Witness for C6: a controller state with `psi_s_ref = 0` and
`i_s_ref = 0`. -/
theorem stator_freq_degenerate_witness :
    Complex.abs ((InductionMotorVhzControl.mk ⟨0, 0⟩ (Pwm.new false) 0 0 0 0 0 0
        0 0 0 0 0 0).psi_s_ref -
      (((InductionMotorVhzControl.mk ⟨0, 0⟩ (Pwm.new false) 0 0 0 0 0 0
        0 0 0 0 0 0).l_sgm : ℝ) : ℂ) *
      (InductionMotorVhzControl.mk ⟨0, 0⟩ (Pwm.new false) 0 0 0 0 0 0
        0 0 0 0 0 0).i_s_ref) ^ 2 ≤ 0 ∧
    (InductionMotorVhzControl.mk ⟨0, 0⟩ (Pwm.new false) 0 0 0 0 0 0
        0 0 0 0 0 0).stator_freq 1 2 = (0, 0) :=
  ⟨by simp, stator_freq_degenerate _ 1 2 (by simp)⟩

/-! ### Stator-coordinate reference is not a rotation (C3) -/

/-- Claim C3 is refuted by the code: `Pwm::output` computes
`Float::exp(theta_comp) * u_ref`, a real exponential scaling, not the
rotation `exp(j*theta_comp)`.  At `u_ref = 1`, `theta = 1`, `w = 0`,
`t_s = 0` the stator-coordinate reference has magnitude `e ≠ 1 = |u_ref|`. -/
theorem stator_ref_scales_magnitude :
    Complex.abs ((Pwm.new false).stator_ref 0 1 540 1 0) = Real.exp 1 ∧
      Complex.abs ((Pwm.new false).stator_ref 0 1 540 1 0) ≠
        Complex.abs (1 : ℂ) := by
  have h : (Pwm.new false).stator_ref 0 1 540 1 0 = ((Real.exp 1 : ℝ) : ℂ) := by
    unfold Pwm.stator_ref Pwm.theta_comp Pwm.new
    norm_num
  have habs : Complex.abs ((Pwm.new false).stator_ref 0 1 540 1 0) = Real.exp 1 := by
    rw [h, Complex.abs_ofReal, abs_of_pos (Real.exp_pos 1)]
  refine ⟨habs, ?_⟩
  rw [habs, map_one]
  intro he
  linarith [Real.exp_one_gt_d9]

/-! ### Six-step overmodulation (C7) -/

/-- Claim C7 is refuted by the code: in the overmodulation branch the
modified reference `r * Float::exp(theta0 + sector*PI/3)` is a real
product (real exponential), so its magnitude is `r * e^angle`, not `r`.
At `u_s_ref = -1080`, `u_dc = 540` the clipped magnitude is `r = 360`
and `sqrt 3 * r > 540`, but the function returns the real number
`360 * e^pi`, whose magnitude differs from `r`. -/
theorem six_step_overmodulation_magnitude_bug :
    six_step_overmodulation ((-1080 : ℝ) : ℂ) 540 =
        ((360 * Real.exp Real.pi : ℝ) : ℂ) ∧
      Real.sqrt 3 * min (Complex.abs ((-1080 : ℝ) : ℂ)) (2 / 3 * 540) > 540 ∧
      Complex.abs (six_step_overmodulation ((-1080 : ℝ) : ℂ) 540) ≠
        min (Complex.abs ((-1080 : ℝ) : ℂ)) (2 / 3 * 540) := by
  have hs3 : Real.sqrt 3 * Real.sqrt 3 = 3 := Real.mul_self_sqrt (by norm_num)
  have hs3pos : 0 < Real.sqrt 3 := Real.sqrt_pos.mpr (by norm_num)
  have hs3gt : (1.5 : ℝ) < Real.sqrt 3 := by nlinarith
  have habs : Complex.abs ((-1080 : ℝ) : ℂ) = 1080 := by
    rw [Complex.abs_ofReal]; norm_num
  have hmin : min (Complex.abs ((-1080 : ℝ) : ℂ)) (2 / 3 * 540 : ℝ) = 360 := by
    rw [habs]; norm_num
  have hcond : Real.sqrt 3 * (360 : ℝ) > 540 := by nlinarith
  have heq : six_step_overmodulation ((-1080 : ℝ) : ℂ) 540 =
      ((360 * Real.exp Real.pi : ℝ) : ℂ) := by
    unfold six_step_overmodulation
    dsimp only
    rw [hmin, if_pos hcond]
    rw [Complex.arg_ofReal_of_neg (by norm_num)]
    have h33 : (3 : ℝ) * Real.pi / Real.pi = 3 := by
      field_simp
    rw [h33]
    have hfl : ((⌊(3 : ℝ)⌋ : ℤ) : ℝ) = 3 := by norm_num
    rw [hfl]
    have hth : Real.pi - 3 * Real.pi / 3 = 0 := by ring
    rw [hth]
    have hquot : (540 : ℝ) / (Real.sqrt 3 * 360) = Real.sqrt 3 / 2 := by
      rw [div_eq_div_iff (by positivity) (by norm_num)]
      nlinarith
    rw [hquot]
    have harccos : Real.arccos (Real.sqrt 3 / 2) = Real.pi / 6 := by
      rw [← Real.cos_pi_div_six]
      exact Real.arccos_cos (by positivity) (by linarith [Real.pi_pos])
    rw [harccos]
    have hag : Real.pi / 6 - Real.pi / 6 = 0 := by ring
    rw [hag]
    rw [if_pos ⟨le_refl (0 : ℝ), by positivity⟩]
    have hexp : (0 : ℝ) + 3 * Real.pi / 3 = Real.pi := by ring
    rw [hexp]
  refine ⟨heq, by rw [hmin]; exact hcond, ?_⟩
  rw [heq, hmin, Complex.abs_ofReal,
    abs_of_pos (by positivity : (0 : ℝ) < 360 * Real.exp Real.pi)]
  intro hc
  have hexp1 : (1 : ℝ) < Real.exp Real.pi := by
    nlinarith [Real.add_one_le_exp Real.pi, Real.pi_pos]
  nlinarith

/-! ### Round trip of the transforms (C4) -/

/-- Claim C4 is refuted by the code: `abc2complex` in `src/lib.rs` adds
the `(x_b - x_c)/sqrt 3` term to the real part (its result is an `f32`),
so the round trip at `x = (0, 1, 0)` returns first component
`1/sqrt 3 - 1/3`, not `x_a` minus the zero sequence, which is `-1/3`. -/
theorem round_trip_zero_sequence_bug :
    (complex_to_abc ((abc2complex (0, 1, 0) : ℝ) : ℂ)).1 =
        1 / Real.sqrt 3 - 1 / 3 ∧
      (complex_to_abc ((abc2complex (0, 1, 0) : ℝ) : ℂ)).1 ≠
        (0 : ℝ) - (0 + 1 + 0) / 3 := by
  have h1 : (complex_to_abc ((abc2complex (0, 1, 0) : ℝ) : ℂ)).1 =
      1 / Real.sqrt 3 - 1 / 3 := by
    unfold complex_to_abc abc2complex
    dsimp only [Complex.ofReal_re]
    norm_num
    ring
  refine ⟨h1, ?_⟩
  rw [h1]
  have hs3pos : 0 < Real.sqrt 3 := Real.sqrt_pos.mpr (by norm_num)
  intro hc
  have h0 : 1 / Real.sqrt 3 = 0 := by
    have : (0 : ℝ) - (0 + 1 + 0) / 3 = -(1 / 3) := by norm_num
    rw [this] at hc
    linarith
  rw [div_eq_zero_iff] at h0
  rcases h0 with h' | h'
  · exact one_ne_zero h'
  · linarith

/-- The round trip of C4 does hold for the spec's intended complex-valued
transform `abc_to_complex_spec`: it returns the input minus its
zero-sequence component in each phase. -/
lemma complex_to_abc_abc_to_complex_spec (x : ℝ × ℝ × ℝ) :
    complex_to_abc (abc_to_complex_spec x) =
      (x.1 - (x.1 + x.2.1 + x.2.2) / 3,
       x.2.1 - (x.1 + x.2.1 + x.2.2) / 3,
       x.2.2 - (x.1 + x.2.1 + x.2.2) / 3) := by
  obtain ⟨a, b, c⟩ := x
  have hs3 : Real.sqrt 3 ≠ 0 := ne_of_gt (Real.sqrt_pos.mpr (by norm_num))
  unfold complex_to_abc abc_to_complex_spec
  dsimp only
  simp only [Complex.add_re, Complex.add_im, Complex.ofReal_re,
    Complex.ofReal_im, Complex.mul_re, Complex.mul_im, Complex.I_re,
    Complex.I_im, Prod.mk.injEq]
  refine ⟨by ring, ?_, ?_⟩ <;> field_simp <;> ring

/-! ### Duty-ratio bounds and symmetry (C1, C10) -/

/-- A phase value within half the DC-bus voltage of zero yields a duty
ratio in the unit interval. -/
lemma comp_bound (x u_dc : ℝ) (h : 0 < u_dc) (h1 : -(u_dc / 2) ≤ x)
    (h2 : x ≤ u_dc / 2) : 0 ≤ x / u_dc + 0.5 ∧ x / u_dc + 0.5 ≤ 1 := by
  have hne : u_dc ≠ 0 := ne_of_gt h
  have hl : -(u_dc / 2) / u_dc ≤ x / u_dc := (div_le_div_right h).mpr h1
  have hr : x / u_dc ≤ u_dc / 2 / u_dc := (div_le_div_right h).mpr h2
  have e1 : -(u_dc / 2) / u_dc = -(1 / 2 : ℝ) := by field_simp; ring
  have e2 : u_dc / 2 / u_dc = (1 / 2 : ℝ) := by field_simp; ring
  rw [e1] at hl
  rw [e2] at hr
  norm_num at hl hr ⊢
  exact ⟨by linarith, by linarith⟩

/-- Core analysis of `duty_ratios`: with a positive DC-bus voltage the
three returned ratios lie in `[0, 1]`, and their maximum and minimum sum
to 1 (the zero-sequence injection centres them around 0.5 and the
uniform clipping preserves the symmetry). -/
lemma duty_ratios_core (u : ℂ) (u_dc a b c : ℝ) (h : 0 < u_dc)
    (habc : complex_to_abc u = (a, b, c)) :
    ((0 ≤ (duty_ratios u u_dc).1 ∧ (duty_ratios u u_dc).1 ≤ 1) ∧
      (0 ≤ (duty_ratios u u_dc).2.1 ∧ (duty_ratios u u_dc).2.1 ≤ 1) ∧
      (0 ≤ (duty_ratios u u_dc).2.2 ∧ (duty_ratios u u_dc).2.2 ≤ 1)) ∧
    max (max (duty_ratios u u_dc).1 (duty_ratios u u_dc).2.1)
        (duty_ratios u u_dc).2.2 +
      min (min (duty_ratios u u_dc).1 (duty_ratios u u_dc).2.1)
        (duty_ratios u u_dc).2.2 = 1 := by
  have hne : u_dc ≠ 0 := ne_of_gt h
  unfold duty_ratios
  rw [habc]
  dsimp only
  rw [max_sub_sub_right, max_sub_sub_right]
  set M := max (max a b) c with hMdef
  set mn := min (min a b) c with hmndef
  set u0 := 0.5 * (M + mn) with hu0
  have haM : a ≤ M := le_trans (le_max_left a b) (le_max_left _ c)
  have hbM : b ≤ M := le_trans (le_max_right a b) (le_max_left _ c)
  have hcM : c ≤ M := le_max_right _ c
  have hma : mn ≤ a := le_trans (min_le_left _ c) (min_le_left a b)
  have hmb : mn ≤ b := le_trans (min_le_left _ c) (min_le_right a b)
  have hmc : mn ≤ c := min_le_right _ c
  have hmneg : mn - u0 = -(M - u0) := by rw [hu0]; ring
  by_cases hm : 2 / u_dc * (M - u0) > 1
  · rw [if_pos hm]
    dsimp only
    have h2u : 0 < 2 / u_dc := by positivity
    have hMu : 0 < M - u0 := by nlinarith
    have hmpos : 0 < 2 / u_dc * (M - u0) := by positivity
    have hdM : (M - u0) / (2 / u_dc * (M - u0)) = u_dc / 2 := by
      rw [div_eq_iff (ne_of_gt hmpos)]
      field_simp
      ring
    have hdmn : (mn - u0) / (2 / u_dc * (M - u0)) = -(u_dc / 2) := by
      rw [hmneg, neg_div, hdM]
    have hbnd : ∀ x : ℝ, mn ≤ x → x ≤ M →
        -(u_dc / 2) ≤ (x - u0) / (2 / u_dc * (M - u0)) ∧
          (x - u0) / (2 / u_dc * (M - u0)) ≤ u_dc / 2 := by
      intro x hx1 hx2
      constructor
      · rw [← hdmn]
        exact (div_le_div_right hmpos).mpr (by linarith)
      · rw [← hdM]
        exact (div_le_div_right hmpos).mpr (by linarith)
    constructor
    · refine ⟨comp_bound _ _ h (hbnd a hma haM).1 (hbnd a hma haM).2,
        comp_bound _ _ h (hbnd b hmb hbM).1 (hbnd b hmb hbM).2,
        comp_bound _ _ h (hbnd c hmc hcM).1 (hbnd c hmc hcM).2⟩
    · rw [max_add_add_right, max_add_add_right, min_add_add_right,
        min_add_add_right, max_div_div_right (le_of_lt h),
        max_div_div_right (le_of_lt h), min_div_div_right (le_of_lt h),
        min_div_div_right (le_of_lt h), max_div_div_right (le_of_lt hmpos),
        max_div_div_right (le_of_lt hmpos),
        min_div_div_right (le_of_lt hmpos),
        min_div_div_right (le_of_lt hmpos), max_sub_sub_right,
        max_sub_sub_right, min_sub_sub_right, min_sub_sub_right, ← hMdef,
        ← hmndef, hdM, hdmn]
      have e2 : u_dc / 2 / u_dc = (1 / 2 : ℝ) := by field_simp; ring
      rw [neg_div, e2]
      norm_num
  · rw [if_neg hm]
    dsimp only
    have hMu2 : M - u0 ≤ u_dc / 2 := by
      have h1 : 2 / u_dc * (M - u0) ≤ 1 := not_lt.mp hm
      have h2 : 2 / u_dc * (M - u0) * u_dc ≤ 1 * u_dc :=
        mul_le_mul_of_nonneg_right h1 h.le
      have h3 : 2 / u_dc * (M - u0) * u_dc = 2 * (M - u0) := by
        field_simp
      rw [h3] at h2
      linarith
    have hbnd : ∀ x : ℝ, mn ≤ x → x ≤ M →
        -(u_dc / 2) ≤ x - u0 ∧ x - u0 ≤ u_dc / 2 := by
      intro x hx1 hx2
      constructor
      · have : -(u_dc / 2) ≤ mn - u0 := by rw [hmneg]; linarith
        linarith
      · linarith
    constructor
    · refine ⟨comp_bound _ _ h (hbnd a hma haM).1 (hbnd a hma haM).2,
        comp_bound _ _ h (hbnd b hmb hbM).1 (hbnd b hmb hbM).2,
        comp_bound _ _ h (hbnd c hmc hcM).1 (hbnd c hmc hcM).2⟩
    · rw [max_add_add_right, max_add_add_right, min_add_add_right,
        min_add_add_right, max_div_div_right (le_of_lt h),
        max_div_div_right (le_of_lt h), min_div_div_right (le_of_lt h),
        min_div_div_right (le_of_lt h), max_sub_sub_right,
        max_sub_sub_right, min_sub_sub_right, min_sub_sub_right, ← hMdef,
        ← hmndef, hmneg, neg_div]
      have e2 : (M - u0) / u_dc + 0.5 + (-((M - u0) / u_dc) + 0.5) = 1 := by
        ring
      exact e2

/-- Claim C1: for every stator-coordinate voltage reference and every
positive DC-bus voltage, each of the three duty ratios returned by
`duty_ratios` lies in `[0, 1]`. -/
theorem duty_ratios_in_unit_interval (u_s_ref : ℂ) (u_dc : ℝ)
    (h : 0 < u_dc) :
    (0 ≤ (duty_ratios u_s_ref u_dc).1 ∧ (duty_ratios u_s_ref u_dc).1 ≤ 1) ∧
      (0 ≤ (duty_ratios u_s_ref u_dc).2.1 ∧
        (duty_ratios u_s_ref u_dc).2.1 ≤ 1) ∧
      (0 ≤ (duty_ratios u_s_ref u_dc).2.2 ∧
        (duty_ratios u_s_ref u_dc).2.2 ≤ 1) :=
  (duty_ratios_core u_s_ref u_dc _ _ _ h rfl).1

/-- Witness for C1 at `u_s_ref = 0`, `u_dc = 1`. -/
theorem duty_ratios_in_unit_interval_witness :
    (0 : ℝ) < 1 ∧
      ((0 ≤ (duty_ratios 0 1).1 ∧ (duty_ratios 0 1).1 ≤ 1) ∧
        (0 ≤ (duty_ratios 0 1).2.1 ∧ (duty_ratios 0 1).2.1 ≤ 1) ∧
        (0 ≤ (duty_ratios 0 1).2.2 ∧ (duty_ratios 0 1).2.2 ≤ 1)) :=
  ⟨zero_lt_one, duty_ratios_in_unit_interval 0 1 zero_lt_one⟩

/-- Claim C10: for every stator-coordinate voltage reference and
positive DC-bus voltage, the maximum and minimum of the three duty
ratios returned by `duty_ratios` sum to 1. -/
theorem duty_ratios_max_min_sum (u_s_ref : ℂ) (u_dc : ℝ) (h : 0 < u_dc) :
    max (max (duty_ratios u_s_ref u_dc).1 (duty_ratios u_s_ref u_dc).2.1)
        (duty_ratios u_s_ref u_dc).2.2 +
      min (min (duty_ratios u_s_ref u_dc).1 (duty_ratios u_s_ref u_dc).2.1)
        (duty_ratios u_s_ref u_dc).2.2 = 1 :=
  (duty_ratios_core u_s_ref u_dc _ _ _ h rfl).2

/-- Witness for C10 at `u_s_ref = 3 + 4i`, `u_dc = 2`. -/
theorem duty_ratios_max_min_sum_witness :
    (0 : ℝ) < 2 ∧
      max (max (duty_ratios (3 + 4 * Complex.I) 2).1
          (duty_ratios (3 + 4 * Complex.I) 2).2.1)
        (duty_ratios (3 + 4 * Complex.I) 2).2.2 +
      min (min (duty_ratios (3 + 4 * Complex.I) 2).1
          (duty_ratios (3 + 4 * Complex.I) 2).2.1)
        (duty_ratios (3 + 4 * Complex.I) 2).2.2 = 1 :=
  ⟨zero_lt_two, duty_ratios_max_min_sum (3 + 4 * Complex.I) 2 zero_lt_two⟩

/-! ### Realized-voltage feedback (C8) -/

/-- Evaluation of `duty_ratios` at the real reference `e = exp 1` with
`u_dc = 6`. -/
lemma duty_ratios_exp_one_eval :
    duty_ratios ((Real.exp 1 : ℝ) : ℂ) 6 =
      (Real.exp 1 / 8 + 1 / 2, -(Real.exp 1 / 8) + 1 / 2,
        -(Real.exp 1 / 8) + 1 / 2) := by
  have he : 0 < Real.exp 1 := Real.exp_pos 1
  have he4 : Real.exp 1 < 4 := by linarith [Real.exp_one_lt_d9]
  have habc : complex_to_abc ((Real.exp 1 : ℝ) : ℂ) =
      (Real.exp 1, -(Real.exp 1 / 2), -(Real.exp 1 / 2)) := by
    unfold complex_to_abc
    dsimp only [Complex.ofReal_re, Complex.ofReal_im]
    rw [mul_zero]
    refine congrArg₂ _ rfl (congrArg₂ _ ?_ ?_) <;> ring
  unfold duty_ratios
  rw [habc]
  dsimp only
  rw [max_sub_sub_right, max_sub_sub_right]
  have hmax1 : max (Real.exp 1) (-(Real.exp 1 / 2)) = Real.exp 1 :=
    max_eq_left (by linarith)
  have hmin1 : min (Real.exp 1) (-(Real.exp 1 / 2)) = -(Real.exp 1 / 2) :=
    min_eq_right (by linarith)
  rw [hmin1, min_self, hmax1, hmax1]
  rw [if_neg (by intro hcon; nlinarith)]
  refine congrArg₂ _ ?_ (congrArg₂ _ ?_ ?_) <;> ring

/-- Full evaluation of `Pwm::duty_ratios` on a fresh modulator with
`t_s = 1`, `u_ref = 1`, `u_dc = 6`, `theta = 1`, `w = 0`: the realizable
voltage reconstructed by the code is the real number `1` (the real
exponentials cancel), so the updated state is
`⟨false, 1/2, 1⟩`. -/
lemma pwm_duty_ratios_eval :
    (Pwm.new false).duty_ratios 1 1 6 1 0 =
      (⟨false, ((1 / 2 : ℝ) : ℂ), ((1 : ℝ) : ℂ)⟩,
        (Real.exp 1 / 8 + 1 / 2, -(Real.exp 1 / 8) + 1 / 2,
          -(Real.exp 1 / 8) + 1 / 2)) := by
  have htc : Pwm.theta_comp 1 1 0 = 1 := by
    unfold Pwm.theta_comp
    norm_num
  unfold Pwm.duty_ratios Pwm.output Pwm.update Pwm.stator_ref Pwm.new
  dsimp only
  rw [htc, if_neg Bool.false_ne_true, mul_one ((Real.exp 1 : ℝ) : ℂ),
    duty_ratios_exp_one_eval]
  have habc2 : abc2complex (Real.exp 1 / 8 + 1 / 2, -(Real.exp 1 / 8) + 1 / 2,
      -(Real.exp 1 / 8) + 1 / 2) = Real.exp 1 / 6 := by
    unfold abc2complex
    dsimp only
    rw [sub_self, mul_zero, zero_div, add_zero]
    ring
  rw [habc2]
  have hexp : Real.exp (-1 * 1) * (Real.exp 1 / 6 * 6) = 1 := by
    have h1 : (-1 * 1 : ℝ) = -1 := by norm_num
    rw [h1, Real.exp_neg]
    field_simp
  rw [hexp]
  have hhalf : (0.5 * (0 + ((1 : ℝ) : ℂ)) : ℂ) = ((1 / 2 : ℝ) : ℂ) := by
    norm_num
  rw [hhalf]

/-- Claim C8 is refuted by the code: the reconstruction
`Float::exp(-1. * theta_comp) * u_s_ref_lim` in `Pwm::output` is a real
exponential, not the rotation `exp(-j*theta_comp)`.  On a fresh
modulator with `t_s = 1`, `u_ref = 1`, `u_dc = 6`, `theta = 1`, `w = 0`
the code stores `realized_voltage = 1/2` (real), while the claimed
formula `0.5*(u_ref_lim_old + exp(-j*theta_comp)*(abc_to_complex(d_abc)*u_dc))`
has nonzero imaginary part. -/
theorem realized_voltage_formula_bug :
    (((Pwm.new false).duty_ratios 1 1 6 1 0).1).realized_voltage =
        ((1 / 2 : ℝ) : ℂ) ∧
      (((Pwm.new false).duty_ratios 1 1 6 1 0).1).realized_voltage ≠
        0.5 * ((Pwm.new false).u_ref_lim_old +
          Complex.exp (-((Pwm.theta_comp 1 1 0 : ℝ) : ℂ) * Complex.I) *
            (abc_to_complex_spec (((Pwm.new false).duty_ratios 1 1 6 1 0).2) *
              6)) := by
  have htc : Pwm.theta_comp 1 1 0 = 1 := by
    unfold Pwm.theta_comp
    norm_num
  have he : 0 < Real.exp 1 := Real.exp_pos 1
  have hsin : 0 < Real.sin 1 :=
    Real.sin_pos_of_pos_of_lt_pi one_pos (by linarith [Real.pi_gt_three])
  rw [pwm_duty_ratios_eval, htc]
  dsimp only
  refine ⟨rfl, ?_⟩
  have hspec : abc_to_complex_spec (Real.exp 1 / 8 + 1 / 2,
      -(Real.exp 1 / 8) + 1 / 2, -(Real.exp 1 / 8) + 1 / 2) =
      ((Real.exp 1 / 6 : ℝ) : ℂ) := by
    unfold abc_to_complex_spec
    dsimp only
    rw [sub_self, mul_zero, Complex.ofReal_zero, mul_zero, add_zero]
    norm_num
    ring_nf
  rw [hspec]
  rw [show (-((1 : ℝ) : ℂ) * Complex.I) = ((-1 : ℝ) : ℂ) * Complex.I by
    push_cast; ring]
  intro hc
  have him2 := congrArg Complex.im hc
  rw [Complex.exp_mul_I] at him2
  simp only [Pwm.new, Complex.ofReal_im, Complex.add_im, Complex.mul_im,
    Complex.add_re, Complex.mul_re, Complex.I_re, Complex.I_im,
    Complex.ofReal_re, ← Complex.ofReal_cos, ← Complex.ofReal_sin,
    Complex.zero_im, Complex.zero_re] at him2
  norm_num at him2
  nlinarith [him2, Real.exp_pos 1]

/-! ### Stator-flux angle wrap (C2) -/

/-- `abc2complex` of the zero current triple is zero. -/
lemma abc2complex_zero : abc2complex (0, 0, 0) = 0 := by
  unfold abc2complex
  norm_num

/-- The default stator-flux reference is a nonzero complex number. -/
lemma psi_default_ne : ((⟨1.04, 1⟩ : ℂ)) ≠ 0 := by
  intro h
  have him := congrArg Complex.im h
  simp only [Complex.zero_im] at him
  norm_num at him

/-- `stator_freq` of the default controller at zero measured current:
the guard is taken and the slip estimate vanishes, so the dynamic
frequency equals the reference. -/
lemma stator_freq_zero_current (w_s_ref : ℂ) :
    vhzDefault.stator_freq w_s_ref ((0 : ℝ) : ℂ) = (w_s_ref, 0) := by
  have hpos : Complex.abs ((⟨1.04, 1⟩ : ℂ)) ^ 2 > 0 :=
    pow_pos (Complex.abs.pos psi_default_ne) 2
  unfold vhzDefault vhzBuild InductionMotorVhzControl.stator_freq
  dsimp only
  simp only [Complex.ofReal_zero, mul_zero, zero_mul, sub_zero,
    Complex.zero_im, zero_div, add_zero]
  rw [if_pos hpos]

/-- The default rate limiter pulled hard negative for one second moves
down by exactly `2*pi*120`. -/
lemma rate_limit_eval_fall :
    ((RateLimiter.mk (2 * Real.pi * 120) 0).rate_limit 1 (-1000000)).2 =
      -(240 * Real.pi) := by
  have hpi := Real.pi_pos
  have hpilt := Real.pi_lt_315
  unfold RateLimiter.rate_limit
  dsimp only
  rw [show ((-1000000 : ℝ) - 0) / 1 = -1000000 by norm_num]
  rw [if_neg (by nlinarith), if_pos (by nlinarith)]
  ring

/-- Rust's `%` at `-239*pi` modulo `2*pi` keeps the dividend's sign:
the remainder is `-pi`, not the Euclidean `pi`. -/
lemma rustRem_239pi : rustRem (-(239 * Real.pi)) (2 * Real.pi) = -Real.pi := by
  have hpi := Real.pi_pos
  have hq : -(239 * Real.pi) / (2 * Real.pi) = -(239 / 2 : ℝ) := by
    rw [div_eq_iff (by positivity)]
    ring
  unfold rustRem rustTrunc
  rw [hq, if_neg (by norm_num)]
  have hc : ⌈(-(239 / 2) : ℝ)⌉ = -119 := by
    rw [Int.ceil_eq_iff]
    constructor <;> norm_num
  rw [hc]
  push_cast
  ring

/-- Claim C2 is refuted by the code: the wrap
`(theta_s + PI) % (2. * PI) - PI` uses Rust's `%`, the truncated
remainder, which keeps the sign of the dividend, so for a negative
accumulated angle the result can leave `[-pi, pi)`.  From the default
state, one tick with `i_s_abc = 0`, `u_dc = 540`, `w_m_ref = -10^6` and
`t_s = 1` (the rate limiter emits `-240*pi`) leaves
`theta_s = -2*pi < -pi`. -/
theorem theta_wrap_outside_range :
    (vhzDefault.control (0, 0, 0) 540 (-1000000) 1).1.theta_s =
        -(2 * Real.pi) ∧ -(2 * Real.pi) < -Real.pi := by
  refine ⟨?_, by linarith [Real.pi_pos]⟩
  have hproj : (vhzDefault.control (0, 0, 0) 540 (-1000000) 1).1.theta_s =
      rustRem (vhzDefault.theta_s +
        (((1 : ℝ) : ℂ) * (vhzDefault.stator_freq
          ((((vhzDefault.rate_limiter.rate_limit 1 (-1000000)).2 : ℝ) : ℂ) +
            vhzDefault.w_r_ref)
          (((Real.exp (-1 * vhzDefault.theta_s) *
            abc2complex (0, 0, 0) : ℝ) : ℂ))).1).re + Real.pi)
        (2 * Real.pi) - Real.pi := rfl
  rw [hproj]
  rw [show vhzDefault.theta_s = 0 from rfl]
  rw [show vhzDefault.w_r_ref = 0 from rfl]
  rw [show vhzDefault.rate_limiter = RateLimiter.mk (2 * Real.pi * 120) 0
    from rfl]
  rw [rate_limit_eval_fall, abc2complex_zero, mul_zero, add_zero]
  rw [stator_freq_zero_current ((-(240 * Real.pi) : ℝ) : ℂ)]
  dsimp only
  rw [← Complex.ofReal_mul, Complex.ofReal_re]
  rw [show (0 : ℝ) + 1 * -(240 * Real.pi) + Real.pi = -(239 * Real.pi) by
    ring]
  rw [rustRem_239pi]
  ring

/-! ### First-tick duty ratios at zero reference (C9) -/

/-- The default rate limiter at zero input stays at zero. -/
lemma rate_limit_eval_zero :
    ((RateLimiter.mk (2 * Real.pi * 120) 0).rate_limit (0.00025 : ℝ) 0).2 =
      0 := by
  have hpi := Real.pi_pos
  unfold RateLimiter.rate_limit
  dsimp only
  rw [show ((0 : ℝ) - 0) / (0.00025 : ℝ) = 0 by norm_num]
  rw [if_neg (by nlinarith), if_neg (by nlinarith)]

/-- The default controller's voltage reference at zero frequency and
zero current: only the RI compensation `r_s * i_s_ref0` survives, a
fixed complex voltage of magnitude about 15.2 V. -/
lemma voltage_reference_eval :
    vhzDefault.voltage_reference 0 0 =
      (⟨27269 / 2170, 1850 / 217⟩ : ℂ) := by
  unfold vhzDefault vhzBuild InductionMotorVhzControl.voltage_reference
  dsimp only
  simp only [Complex.ofReal_zero, mul_zero, zero_mul, add_zero, zero_add,
    sub_zero, Complex.zero_im]
  refine Complex.ext ?_ ?_ <;>
    simp [Complex.mul_re, Complex.mul_im, Complex.add_re, Complex.add_im,
      Complex.div_re, Complex.div_im, Complex.normSq_ofReal,
      Complex.ofReal_re, Complex.ofReal_im] <;>
    norm_num

/-- Evaluation of `duty_ratios` at the default first-tick voltage
reference with `u_dc = 540`. -/
lemma duty_ratios_c9_eval :
    duty_ratios (⟨27269 / 2170, 1850 / 217⟩ : ℂ) 540 =
      ((3 * (27269 / 2170) + Real.sqrt 3 * (1850 / 217)) / 2160 + 1 / 2,
       (Real.sqrt 3 * (1850 / 217) - 27269 / 2170) / 720 + 1 / 2,
       -((3 * (27269 / 2170) + Real.sqrt 3 * (1850 / 217)) / 2160) + 1 / 2) := by
  have hs3 : Real.sqrt 3 * Real.sqrt 3 = 3 := Real.mul_self_sqrt (by norm_num)
  have hs3n : 0 ≤ Real.sqrt 3 := Real.sqrt_nonneg 3
  have hs3l : (1.7 : ℝ) < Real.sqrt 3 := by nlinarith
  have hs3u : Real.sqrt 3 < 1.8 := by nlinarith
  have habc : complex_to_abc (⟨27269 / 2170, 1850 / 217⟩ : ℂ) =
      ((27269 / 2170 : ℝ),
        0.5 * (-(27269 / 2170) + Real.sqrt 3 * (1850 / 217)),
        0.5 * (-(27269 / 2170) - Real.sqrt 3 * (1850 / 217))) := rfl
  unfold duty_ratios
  rw [habc]
  dsimp only
  rw [max_sub_sub_right, max_sub_sub_right]
  have hb : (0.5 * (-(27269 / 2170) + Real.sqrt 3 * (1850 / 217)) : ℝ) ≤
      27269 / 2170 := by nlinarith
  have hc : (0.5 * (-(27269 / 2170) - Real.sqrt 3 * (1850 / 217)) : ℝ) ≤
      27269 / 2170 := by nlinarith
  have hcb : (0.5 * (-(27269 / 2170) - Real.sqrt 3 * (1850 / 217)) : ℝ) ≤
      0.5 * (-(27269 / 2170) + Real.sqrt 3 * (1850 / 217)) := by nlinarith
  rw [max_eq_left hb, max_eq_left hc, min_eq_right hb, min_eq_right hcb]
  rw [if_neg (by nlinarith)]
  dsimp only
  refine congrArg₂ _ ?_ (congrArg₂ _ ?_ ?_) <;> ring

/-- One tick of the default controller at `w_m_ref = 0`,
`i_s_abc = [0,0,0]`, `u_dc = 540`, `t_s = 250e-6`: the duty ratios in
closed form. -/
lemma control_first_tick_eval :
    (vhzDefault.control (0, 0, 0) 540 0 (0.00025 : ℝ)).2 =
      ((3 * (27269 / 2170) + Real.sqrt 3 * (1850 / 217)) / 2160 + 1 / 2,
       (Real.sqrt 3 * (1850 / 217) - 27269 / 2170) / 720 + 1 / 2,
       -((3 * (27269 / 2170) + Real.sqrt 3 * (1850 / 217)) / 2160) + 1 / 2) := by
  have hproj : (vhzDefault.control (0, 0, 0) 540 0 (0.00025 : ℝ)).2 =
      (vhzDefault.pwm.duty_ratios (0.00025 : ℝ)
        (vhzDefault.voltage_reference
          (vhzDefault.stator_freq
            ((((vhzDefault.rate_limiter.rate_limit (0.00025 : ℝ) 0).2 : ℝ) : ℂ) +
              vhzDefault.w_r_ref)
            (((Real.exp (-1 * vhzDefault.theta_s) *
              abc2complex (0, 0, 0) : ℝ) : ℂ))).1
          (Real.exp (-1 * vhzDefault.theta_s) * abc2complex (0, 0, 0)))
        540 vhzDefault.theta_s
        ((vhzDefault.stator_freq
          ((((vhzDefault.rate_limiter.rate_limit (0.00025 : ℝ) 0).2 : ℝ) : ℂ) +
            vhzDefault.w_r_ref)
          (((Real.exp (-1 * vhzDefault.theta_s) *
            abc2complex (0, 0, 0) : ℝ) : ℂ))).1).re).2 := rfl
  rw [hproj]
  rw [show vhzDefault.theta_s = 0 from rfl]
  rw [show vhzDefault.w_r_ref = 0 from rfl]
  rw [show vhzDefault.rate_limiter = RateLimiter.mk (2 * Real.pi * 120) 0
    from rfl]
  rw [show vhzDefault.pwm = Pwm.new false from rfl]
  rw [abc2complex_zero, mul_zero, rate_limit_eval_zero]
  rw [stator_freq_zero_current (((0 : ℝ) : ℂ) + 0)]
  dsimp only
  rw [Complex.ofReal_zero, add_zero, Complex.zero_re, voltage_reference_eval]
  rw [show ((Pwm.new false).duty_ratios (0.00025 : ℝ)
      (⟨27269 / 2170, 1850 / 217⟩ : ℂ) 540 0 0).2 =
    duty_ratios ((Pwm.new false).stator_ref (0.00025 : ℝ)
      (⟨27269 / 2170, 1850 / 217⟩ : ℂ) 540 0 0) 540 from rfl]
  have hsr : (Pwm.new false).stator_ref (0.00025 : ℝ)
      (⟨27269 / 2170, 1850 / 217⟩ : ℂ) 540 0 0 =
      (⟨27269 / 2170, 1850 / 217⟩ : ℂ) := by
    unfold Pwm.stator_ref Pwm.theta_comp Pwm.new
    dsimp only
    rw [if_neg Bool.false_ne_true]
    rw [show (0 : ℝ) + 1.5 * (0.00025 : ℝ) * 0 = 0 by ring, Real.exp_zero,
      Complex.ofReal_one, one_mul]
  rw [hsr, duty_ratios_c9_eval]

/-- Claim C9 is refuted by the code: on the first tick with zero
reference and zero currents the RI compensation still injects
`r_s * i_s_ref0`, so the first duty ratio deviates from 0.5 by about
2.4e-2, far more than the claimed 1e-3. -/
theorem first_tick_duty_exceeds_tolerance :
    |(vhzDefault.control (0, 0, 0) 540 0 (0.00025 : ℝ)).2.1 - 0.5| >
      1 / 1000 := by
  have hs3n : 0 ≤ Real.sqrt 3 := Real.sqrt_nonneg 3
  rw [control_first_tick_eval]
  dsimp only
  have hpos : (0 : ℝ) <
      (3 * (27269 / 2170) + Real.sqrt 3 * (1850 / 217)) / 2160 + 1 / 2 -
        0.5 := by nlinarith
  rw [abs_of_pos hpos]
  nlinarith

/-- Corrected form of claim C9: after one tick the duty ratios are all
within 2.5e-2 of 0.5 (not 1e-3). -/
theorem first_tick_duty_within_bound :
    |(vhzDefault.control (0, 0, 0) 540 0 (0.00025 : ℝ)).2.1 - 0.5| ≤ 1 / 40 ∧
      |(vhzDefault.control (0, 0, 0) 540 0 (0.00025 : ℝ)).2.2.1 - 0.5| ≤
        1 / 40 ∧
      |(vhzDefault.control (0, 0, 0) 540 0 (0.00025 : ℝ)).2.2.2 - 0.5| ≤
        1 / 40 := by
  have hs3 : Real.sqrt 3 * Real.sqrt 3 = 3 := Real.mul_self_sqrt (by norm_num)
  have hs3n : 0 ≤ Real.sqrt 3 := Real.sqrt_nonneg 3
  have hs3l : (1.7 : ℝ) < Real.sqrt 3 := by nlinarith
  have hs3u : Real.sqrt 3 < 1.8 := by nlinarith
  rw [control_first_tick_eval]
  dsimp only
  refine ⟨abs_le.mpr ⟨by nlinarith, by nlinarith⟩,
    abs_le.mpr ⟨by nlinarith, by nlinarith⟩,
    abs_le.mpr ⟨by nlinarith, by nlinarith⟩⟩
